import Mathlib

/-!
Verification development for the CXT campus-marketplace bot (`bot.py`).

Python strings are modelled as lists of code points (`StrN := List Nat`),
restricted to the ASCII behaviour of `str.lower()` and `re`'s `\w` class,
which covers every literal occurring in the program.  Pure helpers
(`extract_keywords`, `detect_intent`, `search_vendors`,
`update_vendor_rating`) are translated directly; the sqlite tables become
lists of records, `REAL` becomes `ℚ`, and the aiogram dispatcher becomes a
step function over a per-user session, with handlers tried in their
registration order (aiogram 3 semantics: the first handler whose filters
all pass consumes the update; a handler registered without a state filter
matches in every FSM state).
-/

/-- A Python string, as its list of Unicode code points. -/
abbrev StrN := List Nat

/-- Code points of a Lean string literal, for writing concrete inputs. -/
def strCodes (s : String) : StrN := s.toList.map Char.toNat

/-- `str.lower()` on one code point (ASCII range, as used by the program). -/
def lowerC (c : Nat) : Nat := if 65 ≤ c ∧ c ≤ 90 then c + 32 else c

/-- `str.lower()` on a whole string. -/
def lowerN (s : StrN) : StrN := s.map lowerC

/-- Membership in the `\w` class of `re` (ASCII range). -/
def isWordChar (c : Nat) : Bool :=
  (48 ≤ c && c ≤ 57) || (65 ≤ c && c ≤ 90) || (97 ≤ c && c ≤ 122) || c == 95

/-- `leadsWith pre s` is true when `pre` is an initial segment of `s`
(Python `str.startswith`). -/
def leadsWith : StrN → StrN → Bool
  | [], _ => true
  | _ :: _, [] => false
  | a :: as, b :: bs => a == b && leadsWith as bs

/-- `hasSubstr needle hay` is Python's `needle in hay`: containment of
`needle` as a contiguous substring of `hay`. -/
def hasSubstr (needle : StrN) : StrN → Bool
  | [] => leadsWith needle []
  | c :: cs => leadsWith needle (c :: cs) || hasSubstr needle cs

/-- Accumulator pass of `re.findall(r'\b\w+\b', s)`: splits `s` into its
maximal runs of word characters.  `acc` holds the reversed current run. -/
def tokenizeAux : StrN → StrN → List StrN
  | [], acc => if acc = [] then [] else [acc.reverse]
  | c :: cs, acc =>
    if isWordChar c then
      tokenizeAux cs (c :: acc)
    else if acc = [] then
      tokenizeAux cs []
    else
      acc.reverse :: tokenizeAux cs []

/-- `re.findall(r'\b\w+\b', s)`: the maximal word-character runs of `s`,
in scan order. -/
def tokenize (s : StrN) : List StrN := tokenizeAux s []

/-- The fixed stopword list of `extract_keywords` in `bot.py`. -/
def stopwords : List StrN :=
  [strCodes "the", strCodes "a", strCodes "an", strCodes "and", strCodes "or",
   strCodes "but", strCodes "in", strCodes "on", strCodes "at", strCodes "to",
   strCodes "for", strCodes "of", strCodes "with", strCodes "by", strCodes "from",
   strCodes "is", strCodes "are", strCodes "was", strCodes "were", strCodes "i",
   strCodes "you", strCodes "my", strCodes "your", strCodes "do", strCodes "does",
   strCodes "need", strCodes "want", strCodes "looking", strCodes "find",
   strCodes "get", strCodes "have", strCodes "has", strCodes "can",
   strCodes "could", strCodes "would", strCodes "should", strCodes "will",
   strCodes "am"]

/-- `extract_keywords` from `bot.py`: lowercase, tokenize on word boundaries,
drop stopwords and tokens of length ≤ 2.  Returns a list in scan order
(the source returns a Python list, not a set). -/
def extract_keywords (text : StrN) : List StrN :=
  (tokenize (lowerN text)).filter
    (fun w => !(stopwords.contains w) && decide (2 < w.length))

/-- The conversational intents of `detect_intent`. -/
inductive Intent
  | greeting | thanks | help | register | search | unknown
deriving DecidableEq

/-- The greeting phrase list of `detect_intent`. -/
def greetingPhrases : List StrN :=
  [strCodes "hi", strCodes "hello", strCodes "hey", strCodes "good morning",
   strCodes "good afternoon", strCodes "good evening", strCodes "sup",
   strCodes "what" ++ [39] ++ strCodes "s up", strCodes "whatsup"]

/-- The thanks phrase list of `detect_intent`. -/
def thanksPhrases : List StrN :=
  [strCodes "thank", strCodes "thanks", strCodes "appreciate", strCodes "grateful"]

/-- The help ("bot questions") phrase list of `detect_intent`. -/
def botQuestions : List StrN :=
  [strCodes "what can you do", strCodes "how does this work",
   strCodes "what is this", strCodes "help me", strCodes "what do you do"]

/-- The register phrase list of `detect_intent`. -/
def registerPhrases : List StrN :=
  [strCodes "register", strCodes "sign up", strCodes "create account",
   strCodes "add my business", strCodes "list my business", strCodes "become vendor"]

/-- The explicit search-indicator phrase list of `detect_intent`. -/
def searchIndicators : List StrN :=
  [strCodes "need", strCodes "want", strCodes "looking", strCodes "find",
   strCodes "where", strCodes "who", strCodes "buy", strCodes "get",
   strCodes "order", strCodes "search"]

/-- `detect_intent` from `bot.py`: ordered, short-circuiting substring rules
over the lowercased message, with a keyword fallback to `search`. -/
def detect_intent (text : StrN) : Intent :=
  let t := lowerN text
  if greetingPhrases.any (fun g => hasSubstr g t) then .greeting
  else if thanksPhrases.any (fun p => hasSubstr p t) then .thanks
  else if botQuestions.any (fun q => hasSubstr q t) then .help
  else if registerPhrases.any (fun k => hasSubstr k t) then .register
  else if searchIndicators.any (fun s => hasSubstr s t) then .search
  else if 0 < (extract_keywords text).length then .search
  else .unknown

/-- The classifier's rule table as the spec presents it: an ordered list of
(phrase list, intent) pairs, first match wins.  Used only to state the
refinement in claim C1. -/
def intentRules : List (List StrN × Intent) :=
  [(greetingPhrases, .greeting), (thanksPhrases, .thanks),
   (botQuestions, .help), (registerPhrases, .register),
   (searchIndicators, .search)]

/-- Spec-side classifier (from the spec's words, for claim C1): evaluate the
ordered rule table, then the non-empty-keyword fallback, else `unknown`. -/
def classifySpec (text : StrN) : Intent :=
  match intentRules.find? (fun r => r.1.any (fun p => hasSubstr p (lowerN text))) with
  | some r => r.2
  | none => if 0 < (extract_keywords text).length then .search else .unknown

/-- A row of the `vendors` table (`REAL` modelled as `ℚ`). -/
structure Vendor where
  vendor_id : Nat
  telegram_id : Nat
  business_name : StrN
  services : StrN
  keywords : StrN
  contact : StrN
  bot_username : Option StrN
  description : StrN
  price_range : StrN
  total_orders : Nat
  avg_rating : ℚ
deriving DecidableEq

/-- The searchable corpus of `search_vendors`:
`f"{name} {services} {keywords} {desc}".lower()`. -/
def searchableOf (v : Vendor) : StrN :=
  lowerN (v.business_name ++ [32] ++ v.services ++ [32] ++ v.keywords ++ [32] ++ v.description)

/-- One vendor's score in `search_vendors`: the count of query keywords
occurring in the corpus, plus a flat bonus of 2 when any query keyword
occurs in the services text. -/
def vendorScore (qks : List StrN) (v : Vendor) : Nat :=
  (qks.filter (fun k => hasSubstr k (searchableOf v))).length
    + (if qks.any (fun k => hasSubstr k (lowerN v.services)) then 2 else 0)

/-- Stable descending insertion by a `Nat` key: `x` goes in front of the
first element whose key is ≤ its own. -/
def insertByDesc (key : α → Nat) (x : α) : List α → List α
  | [] => [x]
  | y :: ys => if key y ≤ key x then x :: y :: ys else y :: insertByDesc key x ys

/-- Stable descending sort by a `Nat` key; models Python's stable
`list.sort(key=..., reverse=True)`. -/
def sortByDesc (key : α → Nat) : List α → List α
  | [] => []
  | x :: xs => insertByDesc key x (sortByDesc key xs)

/-- The scored scan of `search_vendors` before sorting: each vendor paired
with its score, vendors of score 0 dropped, original order kept. -/
def scanResults (qks : List StrN) (vendors : List Vendor) : List (Vendor × Nat) :=
  (vendors.map (fun v => (v, vendorScore qks v))).filter (fun p => 0 < p.2)

/-- `search_vendors` from `bot.py`, over an explicit vendor table: empty
keyword set short-circuits to `[]`; otherwise score, drop zeros, and sort
descending by score (stable). -/
def search_vendors (query : StrN) (vendors : List Vendor) : List (Vendor × Nat) :=
  let qks := extract_keywords query
  if qks = [] then []
  else sortByDesc (fun p => p.2) (scanResults qks vendors)

/-- The display keyboard cap: `vendor_list_keyboard` renders only the first
ten results (`vendors[:10]`). -/
def vendorListButtons (rs : List (Vendor × Nat)) : List (Vendor × Nat) := rs.take 10

/-- `' '.join(...)` on a list of strings. -/
def joinSp : List StrN → StrN
  | [] => []
  | [w] => w
  | w :: ws => w ++ 32 :: joinSp ws

/-- Order status column (`'pending' | 'completed' | 'flagged'`). -/
inductive OrderStatus
  | pending | completed | flagged
deriving DecidableEq

/-- A row of the `orders` table (timestamps omitted: no claim concerns them). -/
structure OrderRec where
  order_id : Nat
  vendor_id : Nat
  buyer_id : Nat
  details : StrN
  deadline : StrN
  status : OrderStatus
deriving DecidableEq

/-- A row of the `ratings` table. -/
structure RatingRec where
  order_id : Nat
  vendor_id : Nat
  buyer_id : Nat
  stars : Nat
  review_text : Option StrN
deriving DecidableEq

/-- The persistent store: the three sqlite tables, rows in insertion order. -/
structure World where
  vendors : List Vendor := []
  orders : List OrderRec := []
  ratings : List RatingRec := []
deriving DecidableEq

/-- The aiogram FSM states declared in `bot.py` (three `StatesGroup`s). -/
inductive FsmState
  | regBusinessName | regServices | regContact | regBotUsername
  | regDescription | regPriceRange
  | orderDetails | orderDeadline
  | ratingStars | ratingReview
deriving DecidableEq

/-- Which multi-step flow an FSM state belongs to. -/
inductive FlowKind
  | registration | ordering | rating
deriving DecidableEq

/-- Flow membership of each FSM state. -/
def flowOf : FsmState → FlowKind
  | .regBusinessName | .regServices | .regContact | .regBotUsername
  | .regDescription | .regPriceRange => .registration
  | .orderDetails | .orderDeadline => .ordering
  | .ratingStars | .ratingReview => .rating

/-- The per-user FSM data dict (`state.update_data`), one optional slot per
field the handlers store.  A stored `bot_username=None` is conflated with
the field being absent; `process_price_range` reads it with `.get`, so the
two are indistinguishable downstream. -/
structure SessData where
  business_name : Option StrN := none
  services : Option StrN := none
  keywords : Option StrN := none
  contact : Option StrN := none
  bot_username : Option StrN := none
  description : Option StrN := none
  vendor_id : Option Nat := none
  order_details : Option StrN := none
  order_id : Option Nat := none
  stars : Option Nat := none
deriving DecidableEq

/-- One user's conversation state: current FSM state plus collected data. -/
structure Sess where
  fsm : Option FsmState := none
  data : SessData := {}
deriving DecidableEq

/-- Observable routing effects of one dispatched update: a reply prompt, an
invocation of the intent classifier, or a vendor-matcher scan.  Database
writes are visible in the returned `World` instead. -/
inductive Reply
  | welcome | alreadyRegistered | askBusinessName | askServices | askContact
  | askBotUsername | askDescription | askPriceRange | regSuccess | regFailure
  | greetingReply | thanksReply | helpReply | noResults | vendorInfo
  | vendorList | unknownPrompt | askOrderDetails | askDeadline | orderConfirm
  | askStars | askReview | ratingThanks | flaggedNote | searchAgainPrompt
  | botRedirect | botUnavailable | contactInfo | notFoundAlert
  | historyInfo | ratingInfo
deriving DecidableEq

/-- An observable effect of dispatching one update. -/
inductive Effect
  | reply (r : Reply)
  | classify
  | searchScan
deriving DecidableEq

/-- Next `AUTOINCREMENT` id for the vendors table. -/
def nextVendorId (w : World) : Nat := (w.vendors.map (·.vendor_id)).foldr max 0 + 1

/-- Next `AUTOINCREMENT` id for the orders table. -/
def nextOrderId (w : World) : Nat := (w.orders.map (·.order_id)).foldr max 0 + 1

/-- An injectable repository outcome, to model the `try/except` difference
between the two completion handlers (claim C6). -/
inductive RepoErr
  | failure
deriving DecidableEq

/-- `update_vendor_rating` from `bot.py`: recompute `AVG(stars)` and
`COUNT(*)` over the vendor's ratings and overwrite the vendor row.
`AVG` of an empty set is `NULL`, which the code maps to `0.0`. -/
def ratingsFor (w : World) (vid : Nat) : List RatingRec :=
  w.ratings.filter (fun r => r.vendor_id == vid)

/-- Mean of the stars of a rating list, 0 when empty (as the code stores). -/
def ratingAvg (rs : List RatingRec) : ℚ :=
  if rs.length = 0 then 0 else (rs.map (fun r => (r.stars : ℚ))).sum / rs.length

/-- The `UPDATE vendors SET avg_rating, total_orders` recompute. -/
def update_vendor_rating (w : World) (vid : Nat) : World :=
  { w with vendors := w.vendors.map (fun v =>
      if v.vendor_id == vid then
        { v with avg_rating := ratingAvg (ratingsFor w vid),
                 total_orders := (ratingsFor w vid).length }
      else v) }

/-- `cmd_register`: refuse when the user already owns a vendor row, else
enter the registration flow at its first step (collected data kept). -/
def cmd_register (w : World) (uid : Nat) (sess : Sess) : World × Sess × List Effect :=
  match w.vendors.find? (fun v => v.telegram_id == uid) with
  | some _ => (w, sess, [.reply .alreadyRegistered])
  | none => (w, { sess with fsm := some .regBusinessName }, [.reply .askBusinessName])

/-- The negative tokens of `process_bot_username` that map to "no bot". -/
def negativeTokens : List StrN :=
  [strCodes "no", strCodes "skip", strCodes "none", strCodes "nope",
   strCodes "na", strCodes "n/a",
   strCodes "don" ++ [39] ++ strCodes "t have", strCodes "dont have"]

/-- ASCII whitespace, for Python `str.strip()`. -/
def isSpaceC (c : Nat) : Bool := c == 32 || c == 9 || c == 10 || c == 13

/-- Python `str.strip()`. -/
def stripN (s : StrN) : StrN :=
  ((s.dropWhile isSpaceC).reverse.dropWhile isSpaceC).reverse

/-- `process_bot_username`: negative tokens store no handle, anything else
is stripped and `@`-prefixed when needed; then ask for the description. -/
def process_bot_username (w : World) (sess : Sess) (text : StrN) :
    World × Sess × List Effect :=
  let bu : Option StrN :=
    if negativeTokens.contains (lowerN text) then none
    else
      let s := stripN text
      some (if leadsWith [64] s then s else 64 :: s)
  (w, ⟨some .regDescription, { sess.data with bot_username := bu }⟩,
   [.reply .askDescription])

/-- `process_price_range`, the registration completion step, with the
repository outcome injected: the `INSERT` sits in a `try/except` whose
`finally` clears the state, so failure yields the generic failure reply
with no vendor row committed, and success commits exactly one row. -/
def processPriceRangeWithRepo (ins : Except RepoErr Unit) (w : World) (uid : Nat)
    (sess : Sess) (text : StrN) : World × Sess × List Effect :=
  match ins with
  | .error _ => (w, ⟨none, {}⟩, [.reply .regFailure])
  | .ok _ =>
    let v : Vendor :=
      { vendor_id := nextVendorId w, telegram_id := uid,
        business_name := sess.data.business_name.getD [],
        services := sess.data.services.getD [],
        keywords := sess.data.keywords.getD [],
        contact := sess.data.contact.getD [],
        bot_username := sess.data.bot_username,
        description := sess.data.description.getD [],
        price_range := text, total_orders := 0, avg_rating := 0 }
    ({ w with vendors := w.vendors ++ [v] }, ⟨none, {}⟩, [.reply .regSuccess])

/-- `complete_order`, the order-flow completion step, with the repository
outcome injected: the `INSERT` has no `try/except`, so a failure
propagates out of the handler before any reply or `state.clear()`. -/
def completeOrderWithRepo (ins : Except RepoErr Nat) (w : World) (uid : Nat)
    (sess : Sess) (text : StrN) : Except RepoErr (World × Sess × List Effect) :=
  match ins with
  | .error e => .error e
  | .ok oid =>
    let vid := sess.data.vendor_id.getD 0
    let o : OrderRec :=
      ⟨oid, vid, uid, sess.data.order_details.getD [], text, .pending⟩
    let w1 := { w with orders := w.orders ++ [o] }
    match w1.vendors.find? (fun v => v.vendor_id == vid) with
    | some _ => .ok (w1, ⟨none, {}⟩, [.reply .orderConfirm])
    | none => .ok (w1, ⟨none, {}⟩, [])

/-- `process_review`: read the order's vendor, insert the rating (review
text absent exactly for `/skip`), recompute the vendor aggregate, clear
the flow.  A missing order makes the handler raise before any write, which
the dispatcher swallows: no state change and no reply. -/
def process_review (w : World) (uid : Nat) (sess : Sess) (text : StrN) :
    World × Sess × List Effect :=
  let oid := sess.data.order_id.getD 0
  match w.orders.find? (fun o => o.order_id == oid) with
  | none => (w, sess, [])
  | some o =>
    let r : RatingRec :=
      ⟨oid, o.vendor_id, uid, sess.data.stars.getD 0,
       if text = strCodes "/skip" then none else some text⟩
    let w1 := { w with ratings := w.ratings ++ [r] }
    (update_vendor_rating w1 o.vendor_id, ⟨none, {}⟩, [.reply .ratingThanks])

/-- The `handle_conversation` idle branch: classify the message and route by
intent; a search intent scans the vendor table through `search_vendors`. -/
def handleIdle (w : World) (uid : Nat) (sess : Sess) (text : StrN) :
    World × Sess × List Effect :=
  match detect_intent text with
  | .greeting => (w, sess, [.classify, .reply .greetingReply])
  | .thanks => (w, sess, [.classify, .reply .thanksReply])
  | .help => (w, sess, [.classify, .reply .helpReply])
  | .register =>
    let r := cmd_register w uid sess
    (r.1, r.2.1, .classify :: r.2.2)
  | .search =>
    let rs := search_vendors text w.vendors
    (w, sess,
     [.classify, .searchScan,
      .reply (if rs = [] then .noResults
              else if rs.length == 1 then .vendorInfo else .vendorList)])
  | .unknown => (w, sess, [.classify, .reply .unknownPrompt])

/-- True when the message text begins with `/`. -/
def startsWithSlash (text : StrN) : Bool :=
  match text with
  | c :: _ => c == 47
  | [] => false

/-- aiogram's `Command("w")` filter: the text is `/w` or starts `/w `. -/
def isCmd (text : StrN) (w : StrN) : Bool :=
  text == 47 :: w || leadsWith (47 :: w ++ [32]) text

/-- One incoming text message dispatched for user `uid`, following the
handler registration order of `bot.py` under aiogram 3 semantics:
`/start` and `/register` commands first, then the six registration state
handlers, then the catch-all `handle_conversation` (which matches every
non-`/` text in any state and returns early when a state is set), and only
then the order-details, order-deadline, review, and command handlers that
were registered after it — reachable only by `/`-prefixed texts. -/
def dispatchMessage (w : World) (uid : Nat) (sess : Sess) (text : StrN) :
    World × Sess × List Effect :=
  if isCmd text (strCodes "start") then (w, sess, [.reply .welcome])
  else if isCmd text (strCodes "register") then cmd_register w uid sess
  else match sess.fsm with
  | some .regBusinessName =>
    (w, ⟨some .regServices, { sess.data with business_name := some text }⟩,
     [.reply .askServices])
  | some .regServices =>
    (w, ⟨some .regContact,
         { sess.data with services := some text,
                          keywords := some (joinSp (extract_keywords text)) }⟩,
     [.reply .askContact])
  | some .regContact =>
    (w, ⟨some .regBotUsername, { sess.data with contact := some text }⟩,
     [.reply .askBotUsername])
  | some .regBotUsername => process_bot_username w sess text
  | some .regDescription =>
    (w, ⟨some .regPriceRange, { sess.data with description := some (text.take 200) }⟩,
     [.reply .askPriceRange])
  | some .regPriceRange => processPriceRangeWithRepo (.ok ()) w uid sess text
  | _ =>
    if startsWithSlash text then
      match sess.fsm with
      | some .orderDetails =>
        (w, ⟨some .orderDeadline, { sess.data with order_details := some text }⟩,
         [.reply .askDeadline])
      | some .orderDeadline =>
        match completeOrderWithRepo (.ok (nextOrderId w)) w uid sess text with
        | .ok r => r
        | .error _ => (w, sess, [])
      | some .ratingReview => process_review w uid sess text
      | _ =>
        if isCmd text (strCodes "orderhistory") then (w, sess, [.reply .historyInfo])
        else if isCmd text (strCodes "myrating") then (w, sess, [.reply .ratingInfo])
        else (w, sess, [])
    else
      match sess.fsm with
      | none => handleIdle w uid sess text
      | some _ => (w, sess, [])

/-- The callback payloads of the inline keyboards (`data.startswith` prefixes
are mutually exclusive, so an inductive is a faithful model). -/
inductive Cb
  | vendor (n : Nat)
  | searchAgain
  | botorder (n : Nat)
  | order (n : Nat)
  | complete (n : Nat)
  | rate (n : Nat)
  | incomplete (n : Nat)
  | contact (n : Nat)
deriving DecidableEq

/-- `UPDATE orders SET status = st WHERE order_id = oid` — unconditional,
exactly as in `order_completed` and `order_incomplete`. -/
def setOrderStatus (w : World) (oid : Nat) (st : OrderStatus) : World :=
  { w with orders := w.orders.map (fun o =>
      if o.order_id == oid then { o with status := st } else o) }

/-- One callback query dispatched, following the callback handler table of
`bot.py`.  Only `process_rating_stars` carries a state filter
(`RatingState.stars`); `start_order` and `order_completed` enter their
flows from any state. -/
def dispatchCallback (w : World) (sess : Sess) (cb : Cb) :
    World × Sess × List Effect :=
  match cb with
  | .vendor n =>
    match w.vendors.find? (fun v => v.vendor_id == n) with
    | some _ => (w, sess, [.reply .vendorInfo])
    | none => (w, sess, [])
  | .searchAgain => (w, sess, [.reply .searchAgainPrompt])
  | .botorder n =>
    match w.vendors.find? (fun v => v.vendor_id == n) with
    | some v => if v.bot_username.isSome then (w, sess, [.reply .botRedirect])
                else (w, sess, [.reply .botUnavailable])
    | none => (w, sess, [.reply .botUnavailable])
  | .order n =>
    (w, ⟨some .orderDetails, { sess.data with vendor_id := some n }⟩,
     [.reply .askOrderDetails])
  | .complete n =>
    (setOrderStatus w n .completed,
     ⟨some .ratingStars, { sess.data with order_id := some n }⟩,
     [.reply .askStars])
  | .rate n =>
    if sess.fsm = some .ratingStars then
      (w, ⟨some .ratingReview, { sess.data with stars := some n }⟩,
       [.reply .askReview])
    else (w, sess, [])
  | .incomplete n =>
    (setOrderStatus w n .flagged, sess, [.reply .flaggedNote])
  | .contact n =>
    match w.vendors.find? (fun v => v.vendor_id == n) with
    | some _ => (w, sess, [.reply .contactInfo])
    | none => (w, sess, [.reply .notFoundAlert])

/-- `schedule_order_followup`'s guard: the 24-hour follow-up prompt is sent
only when the order still exists and is still pending. -/
def followupFires (w : World) (oid : Nat) : Bool :=
  match w.orders.find? (fun o => o.order_id == oid) with
  | some o => o.status == .pending
  | none => false

/-- The vendor row produced by a completed registration whose services text
is `S`: its stored keyword string is the space-join of the extracted
keywords of `S` (`process_services` + `process_price_range`). -/
def mkRegisteredVendor (vid tid : Nat) (name S contact : StrN) (bu : Option StrN)
    (desc price : StrN) : Vendor :=
  { vendor_id := vid, telegram_id := tid, business_name := name, services := S,
    keywords := joinSp (extract_keywords S), contact := contact,
    bot_username := bu, description := desc, price_range := price,
    total_orders := 0, avg_rating := 0 }

/-! ### Substring lemmas -/

/-- `leadsWith` decides list-prefix. -/
theorem leadsWith_iff (p : StrN) : ∀ s : StrN, leadsWith p s = true ↔ ∃ r, s = p ++ r := by
  induction p with
  | nil => intro s; simp [leadsWith]
  | cons a as ih =>
    intro s
    cases s with
    | nil => simp [leadsWith]
    | cons b bs =>
      simp only [leadsWith, Bool.and_eq_true, beq_iff_eq, ih, List.cons_append,
        List.cons_eq_cons]
      constructor
      · rintro ⟨hab, r, hr⟩
        exact ⟨r, hab.symm, hr⟩
      · rintro ⟨r, hba, hr⟩
        exact ⟨hba.symm, r, hr⟩

/-- `hasSubstr` decides substring containment. -/
theorem hasSubstr_iff (n : StrN) : ∀ h : StrN,
    hasSubstr n h = true ↔ ∃ p q, h = p ++ n ++ q := by
  intro h
  induction h with
  | nil =>
    simp only [hasSubstr, leadsWith_iff]
    constructor
    · rintro ⟨r, hr⟩
      exact ⟨[], r, hr⟩
    · rintro ⟨p, q, hpq⟩
      rcases List.append_eq_nil.mp (List.append_eq_nil.mp hpq.symm).1 with ⟨-, hn⟩
      exact ⟨[], by simp [hn]⟩
  | cons c cs ih =>
    simp only [hasSubstr, Bool.or_eq_true, leadsWith_iff, ih]
    constructor
    · rintro (⟨r, hr⟩ | ⟨p, q, hpq⟩)
      · exact ⟨[], r, by simp [hr]⟩
      · exact ⟨c :: p, q, by simp [hpq]⟩
    · rintro ⟨p, q, hpq⟩
      cases p with
      | nil => exact Or.inl ⟨q, by simpa using hpq⟩
      | cons x xs =>
        right
        refine ⟨xs, q, ?_⟩
        have := (List.cons_eq_cons.mp (by simpa using hpq)).2
        simpa using this

/-- Substring containment survives surrounding context. -/
theorem hasSubstr_of_middle {n s : StrN} (p q : StrN) (h : hasSubstr n s = true) :
    hasSubstr n (p ++ s ++ q) = true := by
  rcases (hasSubstr_iff n s).mp h with ⟨a, b, hab⟩
  exact (hasSubstr_iff n _).mpr ⟨p ++ a, b ++ q, by simp [hab]⟩

/-! ### Tokenizer lemmas -/

/-- Every emitted token is nonempty. -/
theorem tokenizeAux_ne_nil : ∀ (s acc : StrN), ∀ t ∈ tokenizeAux s acc, t ≠ [] := by
  intro s
  induction s with
  | nil =>
    intro acc t ht
    simp only [tokenizeAux] at ht
    split at ht
    · simp at ht
    · next hacc =>
      simp only [List.mem_singleton] at ht
      subst ht
      simpa using hacc
  | cons c cs ih =>
    intro acc t ht
    simp only [tokenizeAux] at ht
    split at ht
    · exact ih _ t ht
    · split at ht
      · exact ih _ t ht
      · next hacc =>
        rcases List.mem_cons.mp ht with h | h
        · subst h; simpa using hacc
        · exact ih _ t h

/-- Every emitted token sits contiguously inside `acc.reverse ++ s`. -/
theorem tokenizeAux_sub : ∀ (s acc : StrN), ∀ t ∈ tokenizeAux s acc,
    ∃ p q, acc.reverse ++ s = p ++ t ++ q := by
  intro s
  induction s with
  | nil =>
    intro acc t ht
    simp only [tokenizeAux] at ht
    split at ht
    · simp at ht
    · simp only [List.mem_singleton] at ht
      subst ht
      exact ⟨[], [], by simp⟩
  | cons c cs ih =>
    intro acc t ht
    by_cases hw : isWordChar c = true
    · rw [show tokenizeAux (c :: cs) acc = tokenizeAux cs (c :: acc) by
        simp [tokenizeAux, hw]] at ht
      rcases ih (c :: acc) t ht with ⟨p, q, hpq⟩
      refine ⟨p, q, ?_⟩
      simpa using hpq
    · by_cases ha : acc = []
      · rw [show tokenizeAux (c :: cs) acc = tokenizeAux cs [] by
          simp [tokenizeAux, hw, ha]] at ht
        rcases ih [] t ht with ⟨p, q, hpq⟩
        simp only [List.reverse_nil, List.nil_append] at hpq
        subst ha
        exact ⟨c :: p, q, by simp [hpq]⟩
      · rw [show tokenizeAux (c :: cs) acc = acc.reverse :: tokenizeAux cs [] by
          simp [tokenizeAux, hw, ha]] at ht
        rcases List.mem_cons.mp ht with h | h
        · subst h
          exact ⟨[], c :: cs, by simp⟩
        · rcases ih [] t h with ⟨p, q, hpq⟩
          simp only [List.reverse_nil, List.nil_append] at hpq
          exact ⟨acc.reverse ++ c :: p, q, by simp [hpq]⟩

/-- Every character of every emitted token is a word character, provided the
running accumulator holds word characters only. -/
theorem tokenizeAux_wordChar : ∀ (s acc : StrN),
    (∀ c ∈ acc, isWordChar c = true) → ∀ t ∈ tokenizeAux s acc, ∀ c ∈ t, isWordChar c = true := by
  intro s
  induction s with
  | nil =>
    intro acc hacc t ht c hc
    simp only [tokenizeAux] at ht
    split at ht
    · simp at ht
    · simp only [List.mem_singleton] at ht
      subst ht
      exact hacc c (List.mem_reverse.mp hc)
  | cons x xs ih =>
    intro acc hacc t ht c hc
    simp only [tokenizeAux] at ht
    split at ht
    · next hx =>
      refine ih (x :: acc) ?_ t ht c hc
      intro d hd
      rcases List.mem_cons.mp hd with h | h
      · subst h; exact hx
      · exact hacc d h
    · split at ht
      · exact ih [] (by simp) t ht c hc
      · rcases List.mem_cons.mp ht with h | h
        · subst h
          exact hacc c (List.mem_reverse.mp hc)
        · exact ih [] (by simp) t h c hc

/-- A run of word characters is wholly absorbed into the accumulator. -/
theorem tokenizeAux_append_word : ∀ (u : StrN), (∀ c ∈ u, isWordChar c = true) →
    ∀ (rest acc : StrN), tokenizeAux (u ++ rest) acc = tokenizeAux rest (u.reverse ++ acc) := by
  intro u
  induction u with
  | nil => intro _ rest acc; simp
  | cons c cs ih =>
    intro hu rest acc
    have hc : isWordChar c = true := hu c (by simp)
    have hstep : tokenizeAux ((c :: cs) ++ rest) acc = tokenizeAux (cs ++ rest) (c :: acc) := by
      simp [tokenizeAux, hc]
    rw [hstep, ih (fun d hd => hu d (List.mem_cons_of_mem c hd)) rest (c :: acc)]
    simp

/-- Tokenizing the space-join of nonempty all-word-character tokens returns
exactly those tokens. -/
theorem tokenize_joinSp : ∀ ws : List StrN,
    (∀ w ∈ ws, w ≠ [] ∧ ∀ c ∈ w, isWordChar c = true) →
    tokenize (joinSp ws) = ws := by
  intro ws
  induction ws with
  | nil => intro _; rfl
  | cons w ws ih =>
    intro hws
    rcases hws w (by simp) with ⟨hw, hwchars⟩
    cases ws with
    | nil =>
      show tokenizeAux (joinSp [w]) [] = [w]
      have : joinSp [w] = w := rfl
      rw [this]
      have := tokenizeAux_append_word w hwchars [] []
      simp only [List.append_nil] at this
      rw [this]
      simp [tokenizeAux, hw]
    | cons w' ws' =>
      show tokenizeAux (joinSp (w :: w' :: ws')) [] = w :: w' :: ws'
      have hjoin : joinSp (w :: w' :: ws') = w ++ 32 :: joinSp (w' :: ws') := rfl
      rw [hjoin, tokenizeAux_append_word w hwchars _ []]
      simp only [List.append_nil]
      have hsp : isWordChar 32 = false := by decide
      have hrev : w.reverse ≠ [] := by simpa using hw
      simp only [tokenizeAux, hsp, if_neg (by simp : ¬ (false = true)), if_neg hrev,
        List.reverse_reverse]
      have hih := ih (fun x hx => hws x (List.mem_cons_of_mem w hx))
      unfold tokenize at hih
      rw [hih]

/-! ### Lowercasing lemmas -/

/-- Lowercasing a code point is idempotent. -/
theorem lowerC_idem (c : Nat) : lowerC (lowerC c) = lowerC c := by
  unfold lowerC
  by_cases h : 65 ≤ c ∧ c ≤ 90
  · rw [if_pos h, if_neg (by omega)]
  · rw [if_neg h, if_neg h]

/-- `lowerN` distributes over append. -/
theorem lowerN_append (a b : StrN) : lowerN (a ++ b) = lowerN a ++ lowerN b :=
  List.map_append lowerC a b

/-- Every character of a lowered string is a `lowerC` fixpoint. -/
theorem lowerC_fix_of_mem_lowerN {c : Nat} {s : StrN} (h : c ∈ lowerN s) :
    lowerC c = c := by
  rcases List.mem_map.mp h with ⟨c₀, -, hc₀⟩
  rw [← hc₀]
  exact lowerC_idem c₀

/-- A string all of whose characters are `lowerC` fixpoints is itself a
`lowerN` fixpoint. -/
theorem lowerN_eq_self {s : StrN} (h : ∀ c ∈ s, lowerC c = c) : lowerN s = s :=
  List.map_congr_left h |>.trans (List.map_id s)

/-! ### Keyword-extractor lemmas -/

/-- Unfolding membership in the extractor's output. -/
theorem mem_extract_keywords_iff {w : StrN} {text : StrN} :
    w ∈ extract_keywords text ↔
      w ∈ tokenize (lowerN text) ∧ stopwords.contains w = false ∧ 2 < w.length := by
  unfold extract_keywords
  rw [List.mem_filter]
  simp [Bool.not_eq_true']

/-- Every token of `tokenize s` occurs in `s` as a contiguous substring. -/
theorem tokenize_hasSubstr {t s : StrN} (h : t ∈ tokenize s) :
    hasSubstr t s = true := by
  rcases tokenizeAux_sub s [] t h with ⟨p, q, hpq⟩
  simp only [List.reverse_nil, List.nil_append] at hpq
  exact (hasSubstr_iff t s).mpr ⟨p, q, hpq⟩

/-- Every extracted keyword occurs in the lowered input as a substring. -/
theorem extract_keywords_hasSubstr {w text : StrN} (h : w ∈ extract_keywords text) :
    hasSubstr w (lowerN text) = true :=
  tokenize_hasSubstr (mem_extract_keywords_iff.mp h).1

/-- Every character of an extracted keyword is a `lowerC` fixpoint (the
keyword is already lowercase). -/
theorem extract_keywords_lower {w text : StrN} (h : w ∈ extract_keywords text) :
    lowerN w = w := by
  have htok := (mem_extract_keywords_iff.mp h).1
  rcases tokenizeAux_sub (lowerN text) [] w htok with ⟨p, q, hpq⟩
  simp only [List.reverse_nil, List.nil_append] at hpq
  refine lowerN_eq_self (fun c hc => ?_)
  refine lowerC_fix_of_mem_lowerN (s := text) ?_
  rw [hpq]
  simp [hc]

/-- Every extracted keyword consists of word characters only. -/
theorem extract_keywords_wordChar {w text : StrN} (h : w ∈ extract_keywords text) :
    ∀ c ∈ w, isWordChar c = true :=
  tokenizeAux_wordChar (lowerN text) [] (by simp) w (mem_extract_keywords_iff.mp h).1

/-- Every extracted keyword is nonempty. -/
theorem extract_keywords_ne_nil {w text : StrN} (h : w ∈ extract_keywords text) :
    w ≠ [] :=
  tokenizeAux_ne_nil (lowerN text) [] w (mem_extract_keywords_iff.mp h).1

/-- Joining lowercase words with spaces yields a lowercase string. -/
theorem joinSp_lower : ∀ ws : List StrN, (∀ w ∈ ws, lowerN w = w) →
    lowerN (joinSp ws) = joinSp ws := by
  intro ws
  induction ws with
  | nil => intro _; rfl
  | cons w ws ih =>
    intro h
    cases ws with
    | nil => exact h w (by simp)
    | cons w' ws' =>
      have hj : joinSp (w :: w' :: ws') = w ++ 32 :: joinSp (w' :: ws') := rfl
      rw [hj, lowerN_append]
      have h32 : lowerN (32 :: joinSp (w' :: ws')) = 32 :: lowerN (joinSp (w' :: ws')) := rfl
      rw [h32, ih (fun x hx => h x (List.mem_cons_of_mem w hx)), h w (by simp)]

/-- Re-extracting from the space-join of an extraction returns the same list:
the join is already lowercase, its tokens are exactly the keywords, and each
keyword passes the stopword/length filter again. -/
theorem extract_keywords_join_idem (text : StrN) :
    extract_keywords (joinSp (extract_keywords text)) = extract_keywords text := by
  have hcond : ∀ w ∈ extract_keywords text, w ≠ [] ∧ ∀ c ∈ w, isWordChar c = true :=
    fun w hw => ⟨extract_keywords_ne_nil hw, extract_keywords_wordChar hw⟩
  have hlow : lowerN (joinSp (extract_keywords text)) = joinSp (extract_keywords text) :=
    joinSp_lower _ (fun w hw => extract_keywords_lower hw)
  have htok : tokenize (lowerN (joinSp (extract_keywords text))) = extract_keywords text := by
    rw [hlow]
    exact tokenize_joinSp _ hcond
  show (tokenize (lowerN (joinSp (extract_keywords text)))).filter _ = _
  rw [htok]
  refine List.filter_eq_self.mpr (fun w hw => ?_)
  have h := mem_extract_keywords_iff.mp hw
  simp only [h.2.1, Bool.not_false, Bool.true_and, decide_eq_true_eq]
  exact h.2.2

/-! ### Stable descending sort lemmas -/

/-- Insertion is a permutation of consing. -/
theorem insertByDesc_perm (key : α → Nat) (x : α) :
    ∀ l : List α, (insertByDesc key x l).Perm (x :: l) := by
  intro l
  induction l with
  | nil => simp [insertByDesc]
  | cons y ys ih =>
    unfold insertByDesc
    split
    · exact List.Perm.refl _
    · exact (List.Perm.cons y ih).trans (List.Perm.swap x y ys)

/-- The sort permutes its input. -/
theorem sortByDesc_perm (key : α → Nat) :
    ∀ l : List α, (sortByDesc key l).Perm l := by
  intro l
  induction l with
  | nil => exact List.Perm.refl _
  | cons x xs ih =>
    exact (insertByDesc_perm key x (sortByDesc key xs)).trans (List.Perm.cons x ih)

/-- Inserting into a descending list keeps it descending. -/
theorem insertByDesc_pairwise (key : α → Nat) (x : α) :
    ∀ l : List α, l.Pairwise (fun a b => key b ≤ key a) →
      (insertByDesc key x l).Pairwise (fun a b => key b ≤ key a) := by
  intro l
  induction l with
  | nil => intro _; simp [insertByDesc]
  | cons y ys ih =>
    intro hl
    rcases List.pairwise_cons.mp hl with ⟨hy, hys⟩
    unfold insertByDesc
    split
    · next hkey =>
      refine List.pairwise_cons.mpr ⟨?_, hl⟩
      intro b hb
      rcases List.mem_cons.mp hb with h | h
      · subst h; exact hkey
      · exact le_trans (hy b h) hkey
    · next hkey =>
      refine List.pairwise_cons.mpr ⟨?_, ih hys⟩
      intro b hb
      have hb' := (insertByDesc_perm key x ys).mem_iff.mp hb
      rcases List.mem_cons.mp hb' with h | h
      · subst h; omega
      · exact hy b h

/-- The sort output is descending in the key. -/
theorem sortByDesc_pairwise (key : α → Nat) :
    ∀ l : List α, (sortByDesc key l).Pairwise (fun a b => key b ≤ key a) := by
  intro l
  induction l with
  | nil => simp [sortByDesc]
  | cons x xs ih => exact insertByDesc_pairwise key x (sortByDesc key xs) ih

/-- Insertion does not disturb the subsequence of any fixed key value: the
elements it passes over all have strictly larger keys. -/
theorem insertByDesc_filter (key : α → Nat) (x : α) (c : Nat) :
    ∀ l : List α,
      (insertByDesc key x l).filter (fun a => key a == c) =
        if key x = c then x :: l.filter (fun a => key a == c)
        else l.filter (fun a => key a == c) := by
  intro l
  induction l with
  | nil =>
    by_cases h : key x = c <;> simp [insertByDesc, List.filter_cons, h]
  | cons y ys ih =>
    unfold insertByDesc
    split
    · next hkey =>
      by_cases h : key x = c <;> simp [List.filter_cons, h]
    · next hkey =>
      by_cases hy : key y = c
      · have hxc : key x ≠ c := by
          intro hx
          exact hkey (by omega)
        simp [List.filter_cons, hy, hxc, ih]
      · by_cases h : key x = c <;> simp [List.filter_cons, hy, h, ih]

/-- Sorting preserves, for every key value `c`, the original relative order
of the elements whose key is `c` (stability). -/
theorem sortByDesc_filter (key : α → Nat) (c : Nat) :
    ∀ l : List α,
      (sortByDesc key l).filter (fun a => key a == c) =
        l.filter (fun a => key a == c) := by
  intro l
  induction l with
  | nil => rfl
  | cons x xs ih =>
    show (insertByDesc key x (sortByDesc key xs)).filter _ = _
    rw [insertByDesc_filter]
    by_cases h : key x = c <;> simp [List.filter_cons, h, ih]

/-! ### Claim C9 -/

/-- Claim C9: keyword extraction is idempotent through the stored-string
round trip — for every input string, joining the extracted keywords with
single spaces in original scan order (as `process_services` stores them)
and re-applying the extractor yields exactly the original extraction. -/
theorem c9_keyword_roundtrip (text : StrN) :
    extract_keywords (joinSp (extract_keywords text)) = extract_keywords text :=
  extract_keywords_join_idem text

/-! ### Claim C3 -/

/-- Claim C3 (as stated) is false: `extract_keywords` returns a Python list
and never deduplicates, so the input `"food food"` produces the token
`"food"` twice — the output is not a set. -/
theorem c3_counterexample :
    extract_keywords (strCodes "food food") = [strCodes "food", strCodes "food"]
    ∧ ¬ (extract_keywords (strCodes "food food")).Nodup :=
  ⟨by decide, by decide⟩

/-- Claim C3 (amended): the extractor returns a list, possibly with repeated
tokens; every output token is lowercase (a `lowerN` fixpoint), has length
strictly greater than 2, and is not in the stopword list; the empty input
yields the empty list. -/
theorem c3_extractor_contract (text : StrN) :
    (∀ w ∈ extract_keywords text,
        lowerN w = w ∧ 2 < w.length ∧ w ∉ stopwords)
    ∧ extract_keywords [] = [] := by
  constructor
  · intro w hw
    have h := mem_extract_keywords_iff.mp hw
    refine ⟨extract_keywords_lower hw, h.2.2, ?_⟩
    simpa using h.2.1
  · rfl

/-- Concrete instance of the amended C3 contract at the input
`"Need FOOD now"`, whose only long non-stopword token is `"food"`. -/
theorem c3_witness :
    strCodes "food" ∈ extract_keywords (strCodes "Need FOOD now")
    ∧ (lowerN (strCodes "food") = strCodes "food"
        ∧ 2 < (strCodes "food").length
        ∧ strCodes "food" ∉ stopwords) :=
  ⟨by decide,
   (c3_extractor_contract (strCodes "Need FOOD now")).1 (strCodes "food") (by decide)⟩

/-! ### Claim C1 -/

/-- Claim C1: the intent classifier evaluates its rules in the fixed order
Greeting, Thanks, Help, Register, explicit Search, fallback Search,
Unknown, returning the first match (it refines the ordered rule table
`classifySpec`); a message matching a greeting phrase classifies as
Greeting no matter what else it contains; and Unknown is returned exactly
when no phrase list matches and the keyword extractor yields nothing. -/
theorem c1_intent_priority (text : StrN) :
    detect_intent text = classifySpec text
    ∧ (greetingPhrases.any (fun g => hasSubstr g (lowerN text)) = true →
        detect_intent text = .greeting)
    ∧ (detect_intent text = .unknown ↔
        ((∀ r ∈ intentRules, r.1.any (fun p => hasSubstr p (lowerN text)) = false)
          ∧ extract_keywords text = [])) := by
  refine ⟨?_, ?_, ?_⟩
  · by_cases h1 : greetingPhrases.any (fun g => hasSubstr g (lowerN text)) = true
    · simp [detect_intent, classifySpec, intentRules, List.find?, h1]
    by_cases h2 : thanksPhrases.any (fun p => hasSubstr p (lowerN text)) = true
    · simp [detect_intent, classifySpec, intentRules, List.find?, h1, h2]
    by_cases h3 : botQuestions.any (fun q => hasSubstr q (lowerN text)) = true
    · simp [detect_intent, classifySpec, intentRules, List.find?, h1, h2, h3]
    by_cases h4 : registerPhrases.any (fun k => hasSubstr k (lowerN text)) = true
    · simp [detect_intent, classifySpec, intentRules, List.find?, h1, h2, h3, h4]
    by_cases h5 : searchIndicators.any (fun s => hasSubstr s (lowerN text)) = true
    · simp [detect_intent, classifySpec, intentRules, List.find?, h1, h2, h3, h4, h5]
    simp [detect_intent, classifySpec, intentRules, List.find?, h1, h2, h3, h4, h5]
  · intro h
    simp [detect_intent, h]
  · constructor
    · intro h
      by_cases h1 : greetingPhrases.any (fun g => hasSubstr g (lowerN text)) = true
      · exact absurd h (by simp [detect_intent, h1])
      by_cases h2 : thanksPhrases.any (fun p => hasSubstr p (lowerN text)) = true
      · exact absurd h (by simp [detect_intent, h1, h2])
      by_cases h3 : botQuestions.any (fun q => hasSubstr q (lowerN text)) = true
      · exact absurd h (by simp [detect_intent, h1, h2, h3])
      by_cases h4 : registerPhrases.any (fun k => hasSubstr k (lowerN text)) = true
      · exact absurd h (by simp [detect_intent, h1, h2, h3, h4])
      by_cases h5 : searchIndicators.any (fun s => hasSubstr s (lowerN text)) = true
      · exact absurd h (by simp [detect_intent, h1, h2, h3, h4, h5])
      have hkw : extract_keywords text = [] := by
        by_contra hne
        have hlen : 0 < (extract_keywords text).length := List.length_pos.mpr hne
        exact absurd h (by simp [detect_intent, h1, h2, h3, h4, h5, hlen])
      refine ⟨?_, hkw⟩
      intro r hr
      simp only [intentRules, List.mem_cons, List.not_mem_nil, or_false] at hr
      rcases hr with rfl | rfl | rfl | rfl | rfl
      · simpa using h1
      · simpa using h2
      · simpa using h3
      · simpa using h4
      · simpa using h5
    · rintro ⟨hall, hkw⟩
      have h1 := hall (greetingPhrases, Intent.greeting) (by simp [intentRules])
      have h2 := hall (thanksPhrases, Intent.thanks) (by simp [intentRules])
      have h3 := hall (botQuestions, Intent.help) (by simp [intentRules])
      have h4 := hall (registerPhrases, Intent.register) (by simp [intentRules])
      have h5 := hall (searchIndicators, Intent.search) (by simp [intentRules])
      simp only at h1 h2 h3 h4 h5
      simp [detect_intent, h1, h2, h3, h4, h5, hkw]

/-- Concrete instance of C1's priority: `"hello i need food"` contains both
the greeting phrase `"hello"` and the search indicator `"need"`, and
classifies as Greeting. -/
theorem c1_witness :
    greetingPhrases.any (fun g => hasSubstr g (lowerN (strCodes "hello i need food"))) = true
    ∧ detect_intent (strCodes "hello i need food") = .greeting :=
  ⟨by decide, (c1_intent_priority (strCodes "hello i need food")).2.1 (by decide)⟩

/-! ### Claim C2 -/

/-- With no query keywords, every vendor scores zero and the scan is empty. -/
theorem scanResults_nil_keywords : ∀ vendors : List Vendor, scanResults [] vendors = [] := by
  intro vendors
  induction vendors with
  | nil => rfl
  | cons v vs ih =>
    have h0 : vendorScore [] v = 0 := rfl
    simp only [scanResults, List.map_cons, List.filter_cons, h0] at *
    simpa using ih

/-- Every scan entry pairs a scanned vendor with its positive score. -/
theorem mem_scanResults {qks : List StrN} {vendors : List Vendor}
    {p : Vendor × Nat} (h : p ∈ scanResults qks vendors) :
    0 < p.2 ∧ p.2 = vendorScore qks p.1 := by
  rcases List.mem_filter.mp h with ⟨hmap, hpos⟩
  rcases List.mem_map.mp hmap with ⟨v, -, hv⟩
  subst hv
  exact ⟨by simpa using hpos, rfl⟩

/-- Claim C2: vendor search returns `[]` immediately on an empty extracted
keyword set; otherwise it returns exactly the positive-score scan entries
(a permutation of `scanResults`, each entry carrying `vendorScore`),
ordered by descending score with equal-score entries in original scan
order (the filter at each score value is preserved verbatim), and the
top-10 cap lives only in the display keyboard. -/
theorem c2_search_contract (query : StrN) (vendors : List Vendor) :
    (extract_keywords query = [] → search_vendors query vendors = [])
    ∧ (search_vendors query vendors).Perm (scanResults (extract_keywords query) vendors)
    ∧ (search_vendors query vendors).Pairwise (fun a b => b.2 ≤ a.2)
    ∧ (∀ c : Nat, (search_vendors query vendors).filter (fun p => p.2 == c) =
        (scanResults (extract_keywords query) vendors).filter (fun p => p.2 == c))
    ∧ (∀ p ∈ search_vendors query vendors, 0 < p.2 ∧ p.2 = vendorScore (extract_keywords query) p.1)
    ∧ vendorListButtons (search_vendors query vendors) = (search_vendors query vendors).take 10 := by
  by_cases hq : extract_keywords query = []
  · have hs : search_vendors query vendors = [] := by
      simp [search_vendors, hq]
    have hscan : scanResults (extract_keywords query) vendors = [] := by
      rw [hq]; exact scanResults_nil_keywords vendors
    refine ⟨fun _ => hs, ?_, ?_, ?_, ?_, rfl⟩
    · rw [hs, hscan]
    · rw [hs]; exact List.Pairwise.nil
    · intro c; rw [hs, hscan]
    · intro p hp; rw [hs] at hp; simp at hp
  · have hs : search_vendors query vendors =
        sortByDesc (fun p => p.2) (scanResults (extract_keywords query) vendors) := by
      simp [search_vendors, hq]
    refine ⟨fun h => absurd h hq, ?_, ?_, ?_, ?_, rfl⟩
    · rw [hs]; exact sortByDesc_perm _ _
    · rw [hs]; exact sortByDesc_pairwise _ _
    · intro c; rw [hs]; exact sortByDesc_filter _ c _
    · intro p hp
      rw [hs] at hp
      exact mem_scanResults ((sortByDesc_perm (fun p => p.2) _).mem_iff.mp hp)

/-- Concrete instance of C2's empty-keyword short-circuit: a pure-stopword
query returns no results even over a nonempty vendor table. -/
theorem c2_witness :
    extract_keywords (strCodes "of the in") = []
    ∧ search_vendors (strCodes "of the in")
        [mkRegisteredVendor 1 10 (strCodes "Jollof Spot") (strCodes "jollof rice")
          (strCodes "0801") none (strCodes "Best rice") (strCodes "500")] = [] :=
  ⟨by decide,
   (c2_search_contract (strCodes "of the in")
     [mkRegisteredVendor 1 10 (strCodes "Jollof Spot") (strCodes "jollof rice")
       (strCodes "0801") none (strCodes "Best rice") (strCodes "500")]).1 (by decide)⟩

/-! ### Claim C10 -/

/-- The lowered services text sits contiguously inside the searchable corpus. -/
theorem searchableOf_split (v : Vendor) :
    searchableOf v =
      lowerN (v.business_name ++ [32]) ++ lowerN v.services
        ++ lowerN ([32] ++ v.keywords ++ [32] ++ v.description) := by
  unfold searchableOf
  simp only [← lowerN_append, List.append_assoc]

/-- Claim C10: a vendor registered with services text `S` is found by any
query sharing a keyword with `S`, with score at least 3 (one corpus hit
plus the services bonus of 2). -/
theorem c10_registration_roundtrip (vid tid : Nat) (name S contact desc price q k : StrN)
    (bu : Option StrN) (pre post : List Vendor)
    (hkS : k ∈ extract_keywords S) (hkq : k ∈ extract_keywords q) :
    ∃ s, 3 ≤ s ∧
      (mkRegisteredVendor vid tid name S contact bu desc price, s) ∈
        search_vendors q
          (pre ++ mkRegisteredVendor vid tid name S contact bu desc price :: post) := by
  set v := mkRegisteredVendor vid tid name S contact bu desc price with hv
  have hvserv : v.services = S := rfl
  have hsubS : hasSubstr k (lowerN S) = true := extract_keywords_hasSubstr hkS
  have hserv : hasSubstr k (lowerN v.services) = true := by rw [hvserv]; exact hsubS
  have hbonus : (extract_keywords q).any (fun x => hasSubstr x (lowerN v.services)) = true :=
    List.any_eq_true.mpr ⟨k, hkq, hserv⟩
  have hsearchable : hasSubstr k (searchableOf v) = true := by
    rw [searchableOf_split]
    refine hasSubstr_of_middle _ _ ?_
    rw [hvserv]; exact hsubS
  have hbase : 0 < ((extract_keywords q).filter (fun x => hasSubstr x (searchableOf v))).length :=
    List.length_pos.mpr
      (List.ne_nil_of_mem (List.mem_filter.mpr ⟨hkq, hsearchable⟩))
  have hscore : 3 ≤ vendorScore (extract_keywords q) v := by
    unfold vendorScore
    rw [if_pos hbonus]
    omega
  have hqne : extract_keywords q ≠ [] := List.ne_nil_of_mem hkq
  have hmem : (v, vendorScore (extract_keywords q) v)
      ∈ scanResults (extract_keywords q) (pre ++ v :: post) := by
    refine List.mem_filter.mpr ⟨?_, by simp; omega⟩
    exact List.mem_map.mpr ⟨v, by simp, rfl⟩
  refine ⟨vendorScore (extract_keywords q) v, hscore, ?_⟩
  unfold search_vendors
  rw [if_neg hqne]
  exact ((sortByDesc_perm (fun p => p.2) _).mem_iff).mpr hmem

/-- Concrete instance of C10: a vendor registered with services
`"jollof rice and pasta"` is found by the query `"I need RICE now"`
through the shared keyword `"rice"`, with score at least 3. -/
theorem c10_witness :
    strCodes "rice" ∈ extract_keywords (strCodes "jollof rice and pasta")
    ∧ strCodes "rice" ∈ extract_keywords (strCodes "I need RICE now")
    ∧ ∃ s, 3 ≤ s ∧
        (mkRegisteredVendor 1 10 (strCodes "Jollof Spot") (strCodes "jollof rice and pasta")
           (strCodes "0801") none (strCodes "Best rice in town") (strCodes "500"), s) ∈
          search_vendors (strCodes "I need RICE now")
            [mkRegisteredVendor 1 10 (strCodes "Jollof Spot") (strCodes "jollof rice and pasta")
               (strCodes "0801") none (strCodes "Best rice in town") (strCodes "500")] :=
  ⟨by decide, by decide,
   by
    have h := c10_registration_roundtrip 1 10 (strCodes "Jollof Spot")
      (strCodes "jollof rice and pasta") (strCodes "0801") (strCodes "Best rice in town")
      (strCodes "500") (strCodes "I need RICE now") (strCodes "rice") none [] []
      (by decide) (by decide)
    simpa using h⟩

/-! ### Claim C5 -/

/-- Claim C5: after `process_review` inserts a rating, the vendor row holds
exactly the recomputed mean and count of all of that vendor's ratings
(never an incrementally drifted value), and the recomputed aggregate is
invariant under any permutation of the rating set. -/
theorem c5_rating_aggregate (w : World) (uid : Nat) (sess : Sess) (text : StrN)
    (o : OrderRec)
    (hfind : w.orders.find? (fun x => x.order_id == sess.data.order_id.getD 0) = some o) :
    (∀ v ∈ (process_review w uid sess text).1.vendors,
        v.vendor_id = o.vendor_id →
          v.avg_rating = ratingAvg (ratingsFor (process_review w uid sess text).1 o.vendor_id)
          ∧ v.total_orders = (ratingsFor (process_review w uid sess text).1 o.vendor_id).length)
    ∧ (∀ rs₁ rs₂ : List RatingRec, rs₁.Perm rs₂ →
        ratingAvg rs₁ = ratingAvg rs₂ ∧ rs₁.length = rs₂.length) := by
  constructor
  · intro v hv hvid
    have hrun : process_review w uid sess text =
        (update_vendor_rating
          { w with ratings := w.ratings ++
              [⟨sess.data.order_id.getD 0, o.vendor_id, uid, sess.data.stars.getD 0,
                if text = strCodes "/skip" then none else some text⟩] }
          o.vendor_id,
         ⟨none, {}⟩, [.reply .ratingThanks]) := by
      unfold process_review
      dsimp only
      rw [hfind]
    rw [hrun] at hv ⊢
    set w1 : World := { w with ratings := w.ratings ++
        [⟨sess.data.order_id.getD 0, o.vendor_id, uid, sess.data.stars.getD 0,
          if text = strCodes "/skip" then none else some text⟩] } with hw1
    have hratings : ratingsFor (update_vendor_rating w1 o.vendor_id) o.vendor_id =
        ratingsFor w1 o.vendor_id := rfl
    rw [hratings]
    simp only [update_vendor_rating, List.mem_map] at hv
    rcases hv with ⟨v₀, -, hv₀⟩
    by_cases hb : v₀.vendor_id == o.vendor_id
    · rw [if_pos hb] at hv₀
      rw [← hv₀]
      exact ⟨rfl, rfl⟩
    · rw [if_neg hb] at hv₀
      subst hv₀
      exact absurd hvid (by simpa using hb)
  · intro rs₁ rs₂ hperm
    have hlen := hperm.length_eq
    have hsum : (rs₁.map (fun r => (r.stars : ℚ))).sum
        = (rs₂.map (fun r => (r.stars : ℚ))).sum :=
      (hperm.map (fun r => (r.stars : ℚ))).sum_eq
    refine ⟨?_, hlen⟩
    unfold ratingAvg
    rw [hlen, hsum]

/-- Concrete instance of C5, realising the spec's example: with ratings
{5, 3} already stored, `process_review` adds the third rating (4 stars via
`/skip`), and the vendor aggregate becomes mean 4 with count 3. -/
theorem c5_witness :
    (⟨[{ vendor_id := 1, telegram_id := 10, business_name := strCodes "Jollof Spot",
         services := strCodes "jollof rice", keywords := strCodes "jollof rice",
         contact := strCodes "0801", bot_username := none,
         description := strCodes "Best rice", price_range := strCodes "500",
         total_orders := 2, avg_rating := 4 }],
       [⟨9, 1, 77, strCodes "x", strCodes "y", .completed⟩],
       [⟨7, 1, 77, 5, none⟩, ⟨8, 1, 77, 3, none⟩]⟩ : World).orders.find?
        (fun x => x.order_id ==
          (⟨some .ratingReview, { order_id := some 9, stars := some 4 }⟩ : Sess).data.order_id.getD 0)
      = some ⟨9, 1, 77, strCodes "x", strCodes "y", .completed⟩
    ∧ (∀ v ∈ (process_review
          ⟨[{ vendor_id := 1, telegram_id := 10, business_name := strCodes "Jollof Spot",
              services := strCodes "jollof rice", keywords := strCodes "jollof rice",
              contact := strCodes "0801", bot_username := none,
              description := strCodes "Best rice", price_range := strCodes "500",
              total_orders := 2, avg_rating := 4 }],
            [⟨9, 1, 77, strCodes "x", strCodes "y", .completed⟩],
            [⟨7, 1, 77, 5, none⟩, ⟨8, 1, 77, 3, none⟩]⟩ 77
          ⟨some .ratingReview, { order_id := some 9, stars := some 4 }⟩
          (strCodes "/skip")).1.vendors,
        v.vendor_id = (⟨9, 1, 77, strCodes "x", strCodes "y", OrderStatus.completed⟩ : OrderRec).vendor_id →
          v.avg_rating = ratingAvg (ratingsFor (process_review
              ⟨[{ vendor_id := 1, telegram_id := 10, business_name := strCodes "Jollof Spot",
                  services := strCodes "jollof rice", keywords := strCodes "jollof rice",
                  contact := strCodes "0801", bot_username := none,
                  description := strCodes "Best rice", price_range := strCodes "500",
                  total_orders := 2, avg_rating := 4 }],
                [⟨9, 1, 77, strCodes "x", strCodes "y", .completed⟩],
                [⟨7, 1, 77, 5, none⟩, ⟨8, 1, 77, 3, none⟩]⟩ 77
              ⟨some .ratingReview, { order_id := some 9, stars := some 4 }⟩
              (strCodes "/skip")).1 1)
          ∧ v.total_orders = (ratingsFor (process_review
              ⟨[{ vendor_id := 1, telegram_id := 10, business_name := strCodes "Jollof Spot",
                  services := strCodes "jollof rice", keywords := strCodes "jollof rice",
                  contact := strCodes "0801", bot_username := none,
                  description := strCodes "Best rice", price_range := strCodes "500",
                  total_orders := 2, avg_rating := 4 }],
                [⟨9, 1, 77, strCodes "x", strCodes "y", .completed⟩],
                [⟨7, 1, 77, 5, none⟩, ⟨8, 1, 77, 3, none⟩]⟩ 77
              ⟨some .ratingReview, { order_id := some 9, stars := some 4 }⟩
              (strCodes "/skip")).1 1).length)
    ∧ ratingAvg [⟨7, 1, 77, 5, none⟩, ⟨8, 1, 77, 3, none⟩, ⟨9, 1, 77, 4, none⟩] = 4
    ∧ (ratingsFor (process_review
          ⟨[{ vendor_id := 1, telegram_id := 10, business_name := strCodes "Jollof Spot",
              services := strCodes "jollof rice", keywords := strCodes "jollof rice",
              contact := strCodes "0801", bot_username := none,
              description := strCodes "Best rice", price_range := strCodes "500",
              total_orders := 2, avg_rating := 4 }],
            [⟨9, 1, 77, strCodes "x", strCodes "y", .completed⟩],
            [⟨7, 1, 77, 5, none⟩, ⟨8, 1, 77, 3, none⟩]⟩ 77
          ⟨some .ratingReview, { order_id := some 9, stars := some 4 }⟩
          (strCodes "/skip")).1 1).length = 3 := by
  refine ⟨by decide, ?_, ?_, by decide⟩
  · exact (c5_rating_aggregate _ 77 _ (strCodes "/skip") _ (by decide)).1
  · unfold ratingAvg
    norm_num [List.map_cons, List.sum_cons]

/-! ### Claim C6 -/

/-- Claim C6 (as stated) is false for the Order Placement flow: when the
repository insert fails during `complete_order`, the exception simply
propagates — the conversation state (`orderDeadline`, with collected
fields) is not cleared and no failure message is produced, unlike the
claim's required cleared-state/generic-message outcome. -/
theorem c6_counterexample :
    (⟨some .orderDeadline,
       { vendor_id := some 1, order_details := some (strCodes "2 plates") }⟩ : Sess).fsm
      = some FsmState.orderDeadline
    ∧ completeOrderWithRepo (.error .failure) {} 42
        ⟨some .orderDeadline,
         { vendor_id := some 1, order_details := some (strCodes "2 plates") }⟩
        (strCodes "asap")
      = .error .failure :=
  ⟨rfl, rfl⟩

/-- Claim C6 (amended): on a repository failure during completion the
Registration flow is aborted with the state cleared, a generic failure
reply, and no vendor row committed (the one-row insert is atomic); the
Order Placement completion has no exception handler, so the failure
propagates uncaught — no reply is sent and the state is not cleared. -/
theorem c6_completion_failure (w : World) (uid : Nat) (sess : Sess) (text : StrN)
    (e : RepoErr) :
    processPriceRangeWithRepo (.error e) w uid sess text
      = (w, ⟨none, {}⟩, [.reply .regFailure])
    ∧ completeOrderWithRepo (.error e) w uid sess text = .error e :=
  ⟨rfl, rfl⟩

/-! ### Claim C7 -/

/-- Claim C7 (as stated) is false: `order_completed` updates the status
unconditionally, so dispatching a (stale or repeated) `complete_` callback
for an order already `flagged` — not `pending` — rewrites it to
`completed`. -/
theorem c7_counterexample :
    ((⟨[], [⟨1, 1, 2, strCodes "x", strCodes "y", .flagged⟩], []⟩ : World).orders.map
        (fun o => o.status)) = [.flagged]
    ∧ ((dispatchCallback ⟨[], [⟨1, 1, 2, strCodes "x", strCodes "y", .flagged⟩], []⟩
          ⟨none, {}⟩ (.complete 1)).1.orders.map (fun o => o.status)) = [.completed] :=
  ⟨rfl, by decide⟩

/-- Claim C7 (amended): the only statuses the two callback handlers ever
write are `completed` (complete handler) and `flagged` (incomplete
handler), each touching only the addressed order and leaving every other
row unchanged, and the 24-hour follow-up prompts exactly when the order is
still pending; but neither handler checks the current status first, so on
stale or repeated callbacks the transitions are not terminal. -/
theorem c7_status_transitions (w : World) (sess : Sess) (oid : Nat) :
    (∀ o ∈ (dispatchCallback w sess (.complete oid)).1.orders,
        (o.order_id = oid → o.status = .completed) ∧ (o.order_id ≠ oid → o ∈ w.orders))
    ∧ (∀ o ∈ (dispatchCallback w sess (.incomplete oid)).1.orders,
        (o.order_id = oid → o.status = .flagged) ∧ (o.order_id ≠ oid → o ∈ w.orders))
    ∧ (∀ o, w.orders.find? (fun x => x.order_id == oid) = some o →
        (followupFires w oid = true ↔ o.status = .pending)) := by
  refine ⟨?_, ?_, ?_⟩
  · intro o ho
    have ho' : o ∈ (setOrderStatus w oid .completed).orders := ho
    simp only [setOrderStatus, List.mem_map] at ho'
    rcases ho' with ⟨o₀, ho₀, rfl⟩
    by_cases hb : o₀.order_id == oid
    · rw [if_pos hb]
      exact ⟨fun _ => rfl, fun hne => absurd (by simpa using hb) hne⟩
    · rw [if_neg hb]
      exact ⟨fun heq => absurd heq (by simpa using hb), fun _ => ho₀⟩
  · intro o ho
    have ho' : o ∈ (setOrderStatus w oid .flagged).orders := ho
    simp only [setOrderStatus, List.mem_map] at ho'
    rcases ho' with ⟨o₀, ho₀, rfl⟩
    by_cases hb : o₀.order_id == oid
    · rw [if_pos hb]
      exact ⟨fun _ => rfl, fun hne => absurd (by simpa using hb) hne⟩
    · rw [if_neg hb]
      exact ⟨fun heq => absurd heq (by simpa using hb), fun _ => ho₀⟩
  · intro o hfind
    unfold followupFires
    rw [hfind]
    simp

/-- Concrete instance of the amended C7 over a one-order world: the
complete handler makes order 1 completed, the incomplete handler makes it
flagged, and the follow-up fires because order 1 is pending. -/
theorem c7_witness :
    (∀ o ∈ (dispatchCallback ⟨[], [⟨1, 1, 2, strCodes "a", strCodes "b", .pending⟩], []⟩
        ⟨none, {}⟩ (.complete 1)).1.orders,
      (o.order_id = 1 → o.status = .completed)
      ∧ (o.order_id ≠ 1 → o ∈ (⟨[], [⟨1, 1, 2, strCodes "a", strCodes "b", .pending⟩], []⟩ : World).orders))
    ∧ (∀ o ∈ (dispatchCallback ⟨[], [⟨1, 1, 2, strCodes "a", strCodes "b", .pending⟩], []⟩
        ⟨none, {}⟩ (.incomplete 1)).1.orders,
      (o.order_id = 1 → o.status = .flagged)
      ∧ (o.order_id ≠ 1 → o ∈ (⟨[], [⟨1, 1, 2, strCodes "a", strCodes "b", .pending⟩], []⟩ : World).orders))
    ∧ (∀ o, (⟨[], [⟨1, 1, 2, strCodes "a", strCodes "b", .pending⟩], []⟩ : World).orders.find?
          (fun x => x.order_id == 1) = some o →
        (followupFires ⟨[], [⟨1, 1, 2, strCodes "a", strCodes "b", .pending⟩], []⟩ 1 = true
          ↔ o.status = .pending)) :=
  c7_status_transitions ⟨[], [⟨1, 1, 2, strCodes "a", strCodes "b", .pending⟩], []⟩ ⟨none, {}⟩ 1

/-! ### Claim C4 -/

/-- A text not starting with `/` matches no command filter. -/
theorem isCmd_false_of_not_slash {text : StrN} (h : startsWithSlash text = false)
    (wcmd : StrN) : isCmd text wcmd = false := by
  cases text with
  | nil => rfl
  | cons c cs =>
    have hc : c ≠ 47 := by
      intro hc
      subst hc
      simp [startsWithSlash] at h
    unfold isCmd
    refine Bool.or_eq_false_iff.mpr ⟨?_, ?_⟩
    · refine beq_eq_false_iff_ne.mpr ?_
      intro heq
      exact hc (List.cons_eq_cons.mp heq).1
    · rw [List.cons_append]
      show (47 == c && leadsWith (wcmd ++ [32]) cs) = false
      have : (47 == c) = false := beq_eq_false_iff_ne.mpr (Ne.symm hc)
      rw [this, Bool.false_and]

/-- Claim C4 (as stated) is false at the button-callback entry point: the
`order_` callback handler carries no state guard, so pressing a Place
Order button while the registration flow is mid-flight (state
`regContact`) replaces the active flow with the Order Placement flow. -/
theorem c4_counterexample :
    (⟨some .regContact, {}⟩ : Sess).fsm = some FsmState.regContact
    ∧ (dispatchCallback {} ⟨some .regContact, {}⟩ (.order 5)).2.1.fsm
        = some FsmState.orderDetails
    ∧ flowOf .regContact ≠ flowOf .orderDetails :=
  ⟨rfl, rfl, by decide⟩

/-- Claim C4 (amended): while any flow is active, a free-text (non-command)
message is never routed to the intent classifier or the vendor matcher —
the registration step handlers consume it and every other in-flow state
swallows it via the catch-all guard — and the resulting state stays inside
the same flow (or returns to idle on flow completion); flow hijacking is
possible only through the unguarded button-callback entry points. -/
theorem c4_flow_precedence (w : World) (uid : Nat) (sess : Sess) (text : StrN)
    (st : FsmState) (hfsm : sess.fsm = some st)
    (hslash : startsWithSlash text = false) :
    (Effect.classify ∉ (dispatchMessage w uid sess text).2.2
      ∧ Effect.searchScan ∉ (dispatchMessage w uid sess text).2.2)
    ∧ ((dispatchMessage w uid sess text).2.1.fsm = none
        ∨ ∃ st', (dispatchMessage w uid sess text).2.1.fsm = some st'
            ∧ flowOf st' = flowOf st) := by
  have h1 := isCmd_false_of_not_slash hslash (strCodes "start")
  have h2 := isCmd_false_of_not_slash hslash (strCodes "register")
  cases st with
  | regBusinessName =>
    refine ⟨⟨?_, ?_⟩, Or.inr ⟨.regServices, ?_, rfl⟩⟩ <;>
      simp [dispatchMessage, h1, h2, hfsm]
  | regServices =>
    refine ⟨⟨?_, ?_⟩, Or.inr ⟨.regContact, ?_, rfl⟩⟩ <;>
      simp [dispatchMessage, h1, h2, hfsm]
  | regContact =>
    refine ⟨⟨?_, ?_⟩, Or.inr ⟨.regBotUsername, ?_, rfl⟩⟩ <;>
      simp [dispatchMessage, h1, h2, hfsm]
  | regBotUsername =>
    refine ⟨⟨?_, ?_⟩, Or.inr ⟨.regDescription, ?_, rfl⟩⟩ <;>
      simp [dispatchMessage, h1, h2, hfsm, process_bot_username]
  | regDescription =>
    refine ⟨⟨?_, ?_⟩, Or.inr ⟨.regPriceRange, ?_, rfl⟩⟩ <;>
      simp [dispatchMessage, h1, h2, hfsm]
  | regPriceRange =>
    refine ⟨⟨?_, ?_⟩, Or.inl ?_⟩ <;>
      simp [dispatchMessage, h1, h2, hfsm, processPriceRangeWithRepo]
  | orderDetails =>
    refine ⟨⟨?_, ?_⟩, Or.inr ⟨.orderDetails, ?_, rfl⟩⟩ <;>
      simp [dispatchMessage, h1, h2, hfsm, hslash]
  | orderDeadline =>
    refine ⟨⟨?_, ?_⟩, Or.inr ⟨.orderDeadline, ?_, rfl⟩⟩ <;>
      simp [dispatchMessage, h1, h2, hfsm, hslash]
  | ratingStars =>
    refine ⟨⟨?_, ?_⟩, Or.inr ⟨.ratingStars, ?_, rfl⟩⟩ <;>
      simp [dispatchMessage, h1, h2, hfsm, hslash]
  | ratingReview =>
    refine ⟨⟨?_, ?_⟩, Or.inr ⟨.ratingReview, ?_, rfl⟩⟩ <;>
      simp [dispatchMessage, h1, h2, hfsm, hslash]

/-- Concrete instance of the amended C4: the search-looking message
`"i need food"` sent while the order flow awaits order details is neither
classified nor matched against vendors, and the state stays in the order
flow. -/
theorem c4_witness :
    (⟨some .orderDetails, {}⟩ : Sess).fsm = some FsmState.orderDetails
    ∧ startsWithSlash (strCodes "i need food") = false
    ∧ ((Effect.classify ∉ (dispatchMessage {} 1 ⟨some .orderDetails, {}⟩ (strCodes "i need food")).2.2
        ∧ Effect.searchScan ∉ (dispatchMessage {} 1 ⟨some .orderDetails, {}⟩ (strCodes "i need food")).2.2)
      ∧ ((dispatchMessage {} 1 ⟨some .orderDetails, {}⟩ (strCodes "i need food")).2.1.fsm = none
          ∨ ∃ st', (dispatchMessage {} 1 ⟨some .orderDetails, {}⟩ (strCodes "i need food")).2.1.fsm = some st'
              ∧ flowOf st' = flowOf .orderDetails)) :=
  ⟨rfl, by decide,
   c4_flow_precedence {} 1 ⟨some .orderDetails, {}⟩ (strCodes "i need food")
     .orderDetails rfl (by decide)⟩

/-! ### Claim C8 -/

/-- Claim C8 (as stated) is false: free text sent while the Rating flow
awaits the constrained stars choice produces no reply at all — the
catch-all guard returns early, so the user gets no re-prompt and the
message goes unanswered (though the step indeed does not advance). -/
theorem c8_counterexample :
    dispatchMessage {} 1 ⟨some .ratingStars, {}⟩ (strCodes "five stars")
      = ({}, ⟨some .ratingStars, {}⟩, []) := by
  decide

/-- Claim C8 (amended): input that a step cannot consume never advances the
step or mutates the collected fields, but no re-prompt is sent either: a
free-text message in any order- or rating-flow state leaves the world,
session, and effect list untouched, and a `rate_` callback outside the
stars step is ignored the same way. -/
theorem c8_invalid_input (w : World) (uid : Nat) (sess : Sess) (text : StrN)
    (hslash : startsWithSlash text = false)
    (hst : sess.fsm = some .orderDetails ∨ sess.fsm = some .orderDeadline
        ∨ sess.fsm = some .ratingStars ∨ sess.fsm = some .ratingReview) :
    dispatchMessage w uid sess text = (w, sess, [])
    ∧ ∀ (sess' : Sess) (n : Nat), sess'.fsm ≠ some .ratingStars →
        dispatchCallback w sess' (.rate n) = (w, sess', []) := by
  have h1 := isCmd_false_of_not_slash hslash (strCodes "start")
  have h2 := isCmd_false_of_not_slash hslash (strCodes "register")
  constructor
  · rcases hst with h | h | h | h <;> simp [dispatchMessage, h1, h2, h, hslash]
  · intro sess' n hne
    simp [dispatchCallback, hne]

/-- Concrete instance of the amended C8: a deadline-step message while the
guard swallows it, and a stray `rate_` callback outside the stars step,
both leave everything unchanged and unanswered. -/
theorem c8_witness :
    startsWithSlash (strCodes "two plates please") = false
    ∧ (dispatchMessage {} 9 ⟨some .orderDeadline, {}⟩ (strCodes "two plates please")
          = ({}, ⟨some .orderDeadline, {}⟩, [])
        ∧ ∀ (sess' : Sess) (n : Nat), sess'.fsm ≠ some .ratingStars →
            dispatchCallback {} sess' (.rate n) = ({}, sess', [])) :=
  ⟨by decide,
   c8_invalid_input {} 9 ⟨some .orderDeadline, {}⟩ (strCodes "two plates please")
     (by decide) (Or.inr (Or.inl rfl))⟩
